import Mathlib

/-!
Shallow embedding of the multilingual PDF heading-extraction engine
(`Project1a/app/extractor2.py`) together with proofs about its behaviour.

Modelling conventions:
* text is a list of Unicode code points (`List ℕ`); `codes` turns a Lean
  string literal into such a list;
* Python floats are modelled as exact rationals (`ℚ`); in particular the
  literals `0.3`, `0.4`, `0.15` become `3/10`, `2/5`, `3/20`;
* Python's `sorted` is modelled by `List.insertionSort` (both are stable);
  `set(...)` followed by `sorted(...)` is modelled by `List.dedup`
  followed by `List.insertionSort` (extensionally identical, since the
  sort of a duplicate-free list is determined by its elements);
* `str.lower`, `str.isupper`, `str.isdigit` are modelled on the ASCII
  range; `str.strip` uses the ASCII whitespace set;
* the PDF parsing layer (`fitz`) is external: the pipeline is modelled
  from the per-line records (`text`, max span font size, bold flag,
  1-based page) that `extract_outline_from_pdf` builds in
  `all_text_blocks`, plus the metadata title and the filename stem;
* Python dictionaries preserve insertion order, and `max` over
  `dict.items()` returns the first item attaining the maximum; the
  per-script counters of `detect_script` are therefore modelled as an
  association list in insertion order (`scriptCounts`), and the final
  `max(...)` as a left fold keeping the first strict maximum.
-/

namespace Extractor

/-- Code points of a string literal. -/
def codes (s : String) : List ℕ := s.toList.map Char.toNat

/-- ASCII whitespace, as stripped by Python's `str.strip()`. -/
def isSpace (c : ℕ) : Bool := decide (c = 32 ∨ c = 9 ∨ c = 10 ∨ c = 13 ∨ c = 11 ∨ c = 12)

/-- ASCII lower-casing of one code point (model of `str.lower`). -/
def lowerChar (c : ℕ) : ℕ := if 65 ≤ c ∧ c ≤ 90 then c + 32 else c

/-- Model of `text.lower()`. -/
def pyLower (t : List ℕ) : List ℕ := t.map lowerChar

/-- Model of `text.strip()`: drop leading and trailing whitespace. -/
def pyStrip (t : List ℕ) : List ℕ :=
  ((t.dropWhile isSpace).reverse.dropWhile isSpace).reverse

/-- Accumulator-based splitting on whitespace runs (model of `str.split()`
with no separator: maximal non-space runs, empties dropped). -/
def pyWordsAux (cur : List ℕ) : List ℕ → List (List ℕ)
  | [] => if cur = [] then [] else [cur.reverse]
  | c :: rest =>
    if isSpace c then
      if cur = [] then pyWordsAux [] rest else cur.reverse :: pyWordsAux [] rest
    else
      pyWordsAux (c :: cur) rest

/-- Model of `text.split()`. -/
def pyWords (t : List ℕ) : List (List ℕ) := pyWordsAux [] t

/-- Model of `text.endswith(e)`. -/
def pyEndsWith (t e : List ℕ) : Bool := List.isSuffixOf e t

/-- ASCII model of `str.isupper` on a single character. -/
def isUpper (c : ℕ) : Bool := decide (65 ≤ c ∧ c ≤ 90)

/-- ASCII model of `str.isdigit` on a single character. -/
def isDigit (c : ℕ) : Bool := decide (48 ≤ c ∧ c ≤ 57)

/-- The script tags of `MultilingualHeadingExtractor`. -/
inductive Script where
  | latin | japanese | chinese | korean | arabic | cyrillic | devanagari | thai
  deriving DecidableEq, Fintype

/-- `self.script_ranges`: inclusive Unicode ranges per script. -/
def script_ranges : Script → List (ℕ × ℕ)
  | .latin => [(0x0041, 0x005A), (0x0061, 0x007A), (0x00C0, 0x017F), (0x0100, 0x024F)]
  | .japanese => [(0x3040, 0x309F), (0x30A0, 0x30FF), (0x4E00, 0x9FAF), (0x31F0, 0x31FF)]
  | .chinese => [(0x4E00, 0x9FFF), (0x3400, 0x4DBF), (0x20000, 0x2A6DF)]
  | .korean => [(0xAC00, 0xD7AF), (0x1100, 0x11FF), (0x3130, 0x318F)]
  | .arabic => [(0x0600, 0x06FF), (0x0750, 0x077F), (0x08A0, 0x08FF)]
  | .cyrillic => [(0x0400, 0x04FF), (0x0500, 0x052F)]
  | .devanagari => [(0x0900, 0x097F)]
  | .thai => [(0x0E00, 0x0E7F)]

/-- Declaration order of the `script_ranges` dictionary. -/
def scriptOrder : List Script :=
  [.latin, .japanese, .chinese, .korean, .arabic, .cyrillic, .devanagari, .thai]

/-- `self.sentence_endings`: per-script sentence-terminator tokens. -/
def sentence_endings : Script → List (List ℕ)
  | .latin => [".", "!", "?", ";", ":"].map codes
  | .japanese => ["。", "？", "！", "です", "ます", "である", "だ"].map codes
  | .chinese => ["。", "？", "！", "：", "；"].map codes
  | .korean => ["다", "요", "니다", "습니다", ".", "?", "!"].map codes
  | .arabic => [".", "؟", "!", "؛", "："].map codes
  | .cyrillic => [".", "!", "?", ";", ":"].map codes
  | .devanagari => ["।", "॥", ".", "?", "!"].map codes
  | .thai => [".", "?", "!", "๚", "๛"].map codes

/-- `self.common_words`: per-script common-word lists. -/
def common_words : Script → List (List ℕ)
  | .latin => ["the", "and", "or", "but", "if", "when", "where", "how", "what", "is",
      "a", "in", "for", "to", "of", "with"].map codes
  | .japanese => ["は", "が", "を", "に", "へ", "と", "の", "で", "から", "まで",
      "より", "について", "において", "という"].map codes
  | .chinese => ["的", "了", "是", "在", "有", "和", "或", "但", "如果", "当",
      "哪里", "怎么", "什么"].map codes
  | .korean => ["은", "는", "이", "가", "을", "를", "에", "에서", "로", "와",
      "과", "하다", "이다", "있다"].map codes
  | .arabic => ["في", "من", "إلى", "على", "عن", "مع", "هذا", "هذه", "ذلك",
      "التي", "الذي"].map codes
  | .cyrillic => ["и", "в", "на", "с", "по", "для", "от", "до", "из", "что",
      "как", "где", "когда"].map codes
  | .devanagari => ["और", "में", "से", "को", "का", "की", "के", "है", "हैं",
      "था", "थे", "होगा"].map codes
  | .thai => ["และ", "ใน", "ของ", "ที่", "จาก", "ไป", "มา", "ได้", "เป็น",
      "อยู่", "แล้ว"].map codes

/-- One character matches a script when its code point lies in one of the
script's ranges (the Python `for start, end in ranges: ... break` counts a
character at most once per script). -/
def matchesScript (c : ℕ) (s : Script) : Bool :=
  (script_ranges s).any (fun r => decide (r.1 ≤ c ∧ c ≤ r.2))

/-- `script_counts[script] += 1` on an insertion-ordered association list
(model of a Python `defaultdict(int)`). -/
def bump (st : List (Script × ℕ)) (s : Script) : List (Script × ℕ) :=
  match st with
  | [] => [(s, 1)]
  | (t, n) :: rest => if t = s then (t, n + 1) :: rest else (t, n) :: bump rest s

/-- Process one character: scripts are tried in dictionary declaration
order, and every matching script's counter is incremented. -/
def countChar (st : List (Script × ℕ)) (c : ℕ) : List (Script × ℕ) :=
  scriptOrder.foldl (fun acc s => if matchesScript c s then bump acc s else acc) st

/-- The per-script counters after scanning the whole text, in insertion
order. -/
def scriptCounts (text : List ℕ) : List (Script × ℕ) :=
  text.foldl countChar []

/-- `detect_script` (`extractor2.py` lines 45-62): majority vote over the
per-script counters; Python's `max` keeps the first item (in dictionary
insertion order) attaining the maximal count. -/
def detect_script (text : List ℕ) : Script :=
  if text = [] then .latin
  else
    match scriptCounts text with
    | [] => .latin
    | p :: rest => (rest.foldl (fun best q => if best.2 < q.2 then q else best) p).1

/-- `_is_heading_japanese` (lines 91-104). -/
def is_heading_japanese (text : List ℕ) : Bool :=
  if (0x3001 : ℕ) ∈ text then false
  else
    let particles := ["は", "が", "を", "に", "へ", "と", "の", "で"].map codes
    let particle_count := text.countP (fun c => [c] ∈ particles)
    if 10 < text.length ∧ 2 < particle_count then false
    else
      let sentence_patterns := ["という", "である", "ことが", "ために", "として"].map codes
      if sentence_patterns.any (fun p => pyEndsWith text p) then false
      else true

/-- `_is_heading_chinese` (lines 106-115).  Note: Python's
`char in common_words` matches a character only against the one-character
entries of the list. -/
def is_heading_chinese (text : List ℕ) : Bool :=
  let word_count := text.countP (fun c => [c] ∈ common_words .chinese)
  if 5 < text.length ∧ (text.length : ℚ) * (3 / 10) < (word_count : ℚ) then false
  else if (0xFF0C : ℕ) ∈ text ∨ (0xFF1B : ℕ) ∈ text then false
  else true

/-- `_is_heading_korean` (lines 117-124). -/
def is_heading_korean (text : List ℕ) : Bool :=
  let particle_count := (pyWords text).countP (fun w => w ∈ common_words .korean)
  let total_words := (pyWords text).length
  if 2 < total_words ∧ (total_words : ℚ) * (2 / 5) < (particle_count : ℚ) then false
  else true

/-- `_is_heading_arabic` (lines 126-133). -/
def is_heading_arabic (text : List ℕ) : Bool :=
  let words := pyWords text
  let common_count := words.countP (fun w => w ∈ common_words .arabic)
  if 2 < words.length ∧ (words.length : ℚ) * (2 / 5) < (common_count : ℚ) then false
  else true

/-- `_is_heading_generic` (lines 135-142). -/
def is_heading_generic (text : List ℕ) (script : Script) : Bool :=
  let cw := common_words script
  if cw ≠ [] then
    let words := pyWords text
    let common_count := words.countP (fun w => w ∈ cw)
    if 2 < words.length ∧ (words.length : ℚ) * (2 / 5) < (common_count : ℚ) then false
    else true
  else true

/-- The punctuation set of `_is_heading_latin` (the Python literal
`',.;:()""\''`, with its repeated double quote). -/
def latinPunct : List ℕ := codes ",.;:()\"\"'"

/-- `_is_heading_latin` (lines 144-158).  On empty input Python would
raise `IndexError` at `text[0]`; the function is only ever called on text
of length at least 2 (guarded in `is_likely_heading_by_script`), and the
model returns `false` on `[]`. -/
def is_heading_latin (text : List ℕ) : Bool :=
  match text with
  | [] => false
  | c :: _ =>
    if ¬(isUpper c || isDigit c) then false
    else
      let words := pyWords (pyLower text)
      let common_count := words.countP (fun w => w ∈ common_words .latin)
      if 3 < words.length ∧ (words.length : ℚ) * (2 / 5) < (common_count : ℚ) then false
      else
        let punct_count := text.countP (fun ch => ch ∈ latinPunct)
        if (text.length : ℚ) * (3 / 20) < (punct_count : ℚ) then false
        else true

/-- `is_likely_heading_by_script` (lines 64-89): shared pre-filters
(trimmed length ≥ 2, script-dependent length cap, sentence-terminator
suffix check), then per-script dispatch. -/
def is_likely_heading_by_script (text : List ℕ) (script : Script) : Bool :=
  let t := pyStrip text
  if t.length < 2 then false
  else
    let max_length : ℕ := if script = Script.japanese then 50 else 100
    if max_length < t.length then false
    else if (sentence_endings script).any (fun e => pyEndsWith t e) then false
    else
      match script with
      | .japanese => is_heading_japanese t
      | .chinese => is_heading_chinese t
      | .korean => is_heading_korean t
      | .arabic => is_heading_arabic t
      | .cyrillic => is_heading_generic t .cyrillic
      | .devanagari => is_heading_generic t .devanagari
      | .thai => is_heading_generic t .thai
      | .latin => is_heading_latin t

/-- `is_likely_heading` (lines 160-166). -/
def is_likely_heading (text : List ℕ) : Bool :=
  let t := pyStrip text
  if t.length < 2 then false
  else is_likely_heading_by_script t (detect_script t)

/-- Descending order relation used to model `sorted(..., reverse=True)`. -/
def descLE (a b : ℚ) : Prop := b ≤ a

instance : DecidableRel descLE := fun a b => inferInstanceAs (Decidable (b ≤ a))

instance : IsTotal ℚ descLE := ⟨fun a b => le_total b a⟩

instance : IsTrans ℚ descLE := ⟨fun _ _ _ h1 h2 => le_trans h2 h1⟩

/-- The greedy clustering loop of `cluster_font_sizes` (lines 177-189):
`head` is the first (largest) member of the open cluster, `acc` its other
members, `rest` the remaining distinct sizes in descending order.  A
closed cluster is replaced by its arithmetic mean. -/
def gclusters (head : ℚ) (acc : List ℚ) (rest : List ℚ) (eps : ℚ) : List ℚ :=
  match rest with
  | [] => [(head + acc.sum) / (1 + (acc.length : ℚ))]
  | s :: rest' =>
    if |head - s| ≤ eps then gclusters head (s :: acc) rest' eps
    else ((head + acc.sum) / (1 + (acc.length : ℚ))) :: gclusters s [] rest' eps

/-- `cluster_font_sizes` (lines 168-191). -/
def cluster_font_sizes (sizes : List ℚ) (cluster_eps : ℚ) : List ℚ :=
  if sizes = [] then []
  else
    let unique_sizes := List.insertionSort descLE sizes.dedup
    match unique_sizes with
    | [] => []
    | [x] => [x]
    | x :: y :: rest => List.insertionSort descLE (gclusters x [] (y :: rest) cluster_eps)

/-- `get_font_size_outliers` (lines 193-202): distinct sizes strictly
above the size found at the truncated percentile rank of the sorted
all-sizes list. -/
def get_font_size_outliers (all_sizes : List ℚ) (threshold_percentile : ℕ) : List ℚ :=
  if all_sizes = [] then []
  else
    let sorted_sizes := List.insertionSort (· ≤ ·) all_sizes
    let threshold_idx := all_sizes.length * threshold_percentile / 100
    let threshold_size :=
      if threshold_idx < sorted_sizes.length then sorted_sizes.getD threshold_idx 0
      else sorted_sizes.getLastD 0
    List.insertionSort descLE (all_sizes.dedup.filter (fun s => decide (threshold_size < s)))

/-- The heading levels (`"H1"`, `"H2"`, `"H3"` in the Python source). -/
inductive Level where
  | H1 | H2 | H3
  deriving DecidableEq

/-- The closest-tier loop of `get_heading_level` (lines 208-215): running
over the remaining tiers at index `i`, with current best difference `bd`
attained at index `bi`; Python updates only on a strictly smaller
difference, so ties keep the earlier index. -/
def closestAux (fontsize : ℚ) : List ℚ → ℕ → ℚ → ℕ → ℚ × ℕ
  | [], _, bd, bi => (bd, bi)
  | c :: cs, i, bd, bi =>
    if |fontsize - c| < bd then closestAux fontsize cs (i + 1) |fontsize - c| i
    else closestAux fontsize cs (i + 1) bd bi

/-- `get_heading_level` (lines 204-227).  When the minimum difference is
within tolerance the closest index selects H1/H2/H3; otherwise (including
a within-tolerance index above 4, where the Python `if` chain falls
through) the bold escape may still fire. -/
def get_heading_level (fontsize : ℚ) (clustered_sizes : List ℚ) (bold : Bool)
    (tol : ℚ) : Option Level :=
  match clustered_sizes with
  | [] => none
  | c :: cs =>
    let r := closestAux fontsize cs 1 |fontsize - c| 0
    if r.1 ≤ tol ∧ r.2 = 0 then some .H1
    else if r.1 ≤ tol ∧ r.2 = 1 then some .H2
    else if r.1 ≤ tol ∧ r.2 ≤ 4 then some .H3
    else if bold = true ∧ (c + cs.sum) / (1 + (cs.length : ℚ)) - 1 ≤ fontsize then some .H3
    else none

/-- One extracted text line, as assembled into `all_text_blocks`
(lines 244-267): concatenated span text (already stripped and non-empty
in the source, though the model does not rely on that), the maximum span
font size, the bold flag, and the 1-based page number. -/
structure Line where
  text : List ℕ
  fontsize : ℚ
  is_bold : Bool
  page : ℕ
  deriving DecidableEq

/-- One output heading record. -/
structure Heading where
  level : Level
  text : List ℕ
  page : ℕ
  deriving DecidableEq

/-- The produced outline: title plus ordered headings. -/
structure Outline where
  title : List ℕ
  outline : List Heading
  deriving DecidableEq

/-- `text.lower().strip()`, the deduplication key of the assembler
(line 303). -/
def normL (t : List ℕ) : List ℕ := pyStrip (pyLower t)

/-- `all_font_sizes` (line 260): every line's max font size. -/
def allFontSizes (blocks : List Line) : List ℚ := blocks.map (·.fontsize)

/-- `potential_heading_sizes` (lines 269-270): font sizes of
heading-plausible lines. -/
def potentialHeadingSizes (blocks : List Line) : List ℚ :=
  (blocks.filter (fun b => is_likely_heading b.text)).map (·.fontsize)

/-- The tier centers used by the assembler: the clustering pass at
`cluster_eps = 1.5` followed by the two fallbacks (lines 272-286). -/
def clusteredSizes (blocks : List Line) : List ℚ :=
  let c1 := cluster_font_sizes (potentialHeadingSizes blocks) (3 / 2)
  let c2 :=
    if c1.length < 2 then
      let font_outliers := get_font_size_outliers (allFontSizes blocks) 75
      if font_outliers ≠ [] then font_outliers.take 3 else c1
    else c1
  if c2.length < 3 ∧ allFontSizes blocks ≠ [] then
    match List.insertionSort descLE (allFontSizes blocks).dedup with
    | a :: b :: c :: _ => [a, b, c]
    | [a, b] => [a, b, b - 1]
    | [a] => [a, a - 1, a - 2]
    | [] => c2
  else c2

/-- The 70th-percentile outlier set used by the candidate filter
(line 298). -/
def sizeOutliers70 (blocks : List Line) : List ℚ :=
  get_font_size_outliers (allFontSizes blocks) 70

/-- The emission loop of the assembler (lines 291-315): a line is a
candidate when heading-plausible or a size outlier; candidates whose
normalized text was already emitted are dropped; the remaining candidates
are classified and, when a level is assigned, appended and their
normalized text recorded. -/
def emitLoop (cl ol : List ℚ) : List Line → List Heading → List (List ℕ) → List Heading
  | [], headings, _ => headings
  | b :: rest, headings, seen =>
    if ¬(is_likely_heading b.text = true ∨ b.fontsize ∈ ol) then
      emitLoop cl ol rest headings seen
    else if normL b.text ∈ seen then
      emitLoop cl ol rest headings seen
    else
      match get_heading_level b.fontsize cl b.is_bold 2 with
      | some lvl =>
        emitLoop cl ol rest (headings ++ [⟨lvl, pyStrip b.text, b.page⟩]) (normL b.text :: seen)
      | none => emitLoop cl ol rest headings seen

/-- A line that the emission loop would emit when its normalized text is
fresh: it passes the candidate filter (heading-plausible or a size
outlier, line 300) and the level classifier assigns it a level
(line 309). -/
def acceptsBlock (cl ol : List ℚ) (b : Line) : Bool :=
  (is_likely_heading b.text || decide (b.fontsize ∈ ol))
    && (get_heading_level b.fontsize cl b.is_bold 2).isSome

/-- The headings in emission order. -/
def headingsRaw (blocks : List Line) : List Heading :=
  emitLoop (clusteredSizes blocks) (sizeOutliers70 blocks) blocks [] []

/-- The rank used by the first sort key (line 317). -/
def levelRank : Level → ℕ
  | .H1 => 0
  | .H2 => 1
  | .H3 => 2

/-- The `(page, level-rank)` sort key order of line 317. -/
def pageLevelLE (a b : Heading) : Prop :=
  a.page < b.page ∨ (a.page = b.page ∧ levelRank a.level ≤ levelRank b.level)

instance : DecidableRel pageLevelLE := fun a b =>
  inferInstanceAs (Decidable (a.page < b.page ∨ (a.page = b.page ∧ levelRank a.level ≤ levelRank b.level)))

/-- The page-only sort key order of line 324. -/
def pageLE (a b : Heading) : Prop := a.page ≤ b.page

instance : DecidableRel pageLE := fun a b => inferInstanceAs (Decidable (a.page ≤ b.page))

/-- The headings after the `(page, level-rank)` sort (line 317). -/
def sortedHeadings (blocks : List Line) : List Heading :=
  List.insertionSort pageLevelLE (headingsRaw blocks)

/-- The volume cap (lines 319-324): above 30 headings, keep the first
5 H1s, 10 H2s and 15 H3s and re-sort by page only. -/
def cappedHeadings (blocks : List Line) : List Heading :=
  let headings := sortedHeadings blocks
  if 30 < headings.length then
    List.insertionSort pageLE
      ((headings.filter (fun h => decide (h.level = Level.H1))).take 5 ++
       (headings.filter (fun h => decide (h.level = Level.H2))).take 10 ++
       (headings.filter (fun h => decide (h.level = Level.H3))).take 15)
  else headings

/-- `extract_outline_from_pdf` (lines 229-331), modelled from the
extracted line records onward: title from trimmed metadata (falling back
to the filename stem, lines 232-234), then the heading pipeline. -/
def extract_outline (metaTitle stem : List ℕ) (blocks : List Line) : Outline :=
  let t := pyStrip metaTitle
  { title := if t = [] then stem else t
    outline := cappedHeadings blocks }

/-! ### Facts about stripping and lower-casing -/

attribute [local semireducible] Rat.add Rat.sub Rat.mul Rat.inv

theorem isSpace_lowerChar (c : ℕ) : isSpace (lowerChar c) = isSpace c := by
  unfold lowerChar isSpace
  by_cases h : 65 ≤ c ∧ c ≤ 90
  · rw [if_pos h, decide_eq_decide]
    omega
  · rw [if_neg h]

theorem isSpace_comp_lowerChar : isSpace ∘ lowerChar = isSpace :=
  funext isSpace_lowerChar

theorem dropWhile_isSpace_map_lowerChar (l : List ℕ) :
    (l.map lowerChar).dropWhile isSpace = (l.dropWhile isSpace).map lowerChar := by
  rw [List.dropWhile_map, isSpace_comp_lowerChar]

theorem pyLower_pyStrip (t : List ℕ) : pyLower (pyStrip t) = pyStrip (pyLower t) := by
  unfold pyLower pyStrip
  rw [dropWhile_isSpace_map_lowerChar, ← List.map_reverse,
    dropWhile_isSpace_map_lowerChar, ← List.map_reverse]

theorem pyStrip_idem (t : List ℕ) : pyStrip (pyStrip t) = pyStrip t := by
  have h1 : (pyStrip t).dropWhile isSpace = pyStrip t := by
    have hpre : pyStrip t <+: t.dropWhile isSpace := by
      have hs := (List.dropWhile_suffix (l := (t.dropWhile isSpace).reverse) isSpace).reverse
      rwa [List.reverse_reverse] at hs
    obtain ⟨w, hw⟩ := hpre
    match hu : pyStrip t with
    | [] => rfl
    | a :: u' =>
      have hva : t.dropWhile isSpace = a :: (u' ++ w) := by
        rw [← hw, hu, List.cons_append]
      have ha : isSpace a = false := by
        by_contra hcon
        have ha' : isSpace a = true := by
          cases hx : isSpace a
          · exact absurd hx hcon
          · rfl
        have hidem := List.dropWhile_idempotent (p := isSpace) (l := t)
        rw [hva, List.dropWhile_cons, ha', if_pos rfl] at hidem
        have hle := (List.dropWhile_suffix (l := u' ++ w) isSpace).sublist.length_le
        rw [hidem] at hle
        simp at hle
      rw [List.dropWhile_cons, ha]
      simp
  have h2 : (pyStrip t).reverse = (t.dropWhile isSpace).reverse.dropWhile isSpace := by
    unfold pyStrip
    rw [List.reverse_reverse]
  show (((pyStrip t).dropWhile isSpace).reverse.dropWhile isSpace).reverse = pyStrip t
  rw [h1, h2, List.dropWhile_idempotent, ← h2, List.reverse_reverse]

theorem normL_pyStrip (t : List ℕ) : normL (pyStrip t) = normL t := by
  unfold normL
  rw [pyLower_pyStrip, pyStrip_idem]

/-! ### The script classifier -/

theorem countChar_of_no_match {c : ℕ} (h : ∀ s, matchesScript c s = false)
    (st : List (Script × ℕ)) : countChar st c = st := by
  simp [countChar, scriptOrder, h]

theorem foldl_countChar_no_match :
    ∀ (text : List ℕ) (st : List (Script × ℕ)),
      (∀ c ∈ text, ∀ s, matchesScript c s = false) → text.foldl countChar st = st
  | [], _, _ => rfl
  | c :: rest, st, h => by
    rw [List.foldl_cons, countChar_of_no_match (fun s => h c (List.mem_cons_self c rest) s) st]
    exact foldl_countChar_no_match rest st (fun x hx s => h x (List.mem_cons_of_mem c hx) s)

/-- C8: a string none of whose characters lies in any configured script
range — the empty string included — classifies as latin. -/
theorem C8_unmatched_text_is_latin (text : List ℕ)
    (h : ∀ c ∈ text, ∀ s, matchesScript c s = false) :
    detect_script text = Script.latin := by
  have hc : scriptCounts text = [] := foldl_countChar_no_match text [] h
  unfold detect_script
  by_cases ht : text = []
  · rw [if_pos ht]
  · rw [if_neg ht]
    split
    · rfl
    · rename_i p rest heq
      rw [hc] at heq
      cases heq

/-- Witness for C8: no character of `"123"` (digits) matches a range. -/
theorem C8_unmatched_text_is_latin_witness : detect_script (codes "123") = Script.latin :=
  C8_unmatched_text_is_latin (codes "123") (by decide)

theorem countChar_cjk {c : ℕ} (h1 : 0x4E00 ≤ c) (h2 : c ≤ 0x9FAF)
    (st : List (Script × ℕ)) :
    countChar st c = bump (bump st .japanese) .chinese := by
  have hlat : matchesScript c .latin = false := by
    simp [matchesScript, script_ranges]; omega
  have hjap : matchesScript c .japanese = true := by
    simp [matchesScript, script_ranges]; omega
  have hchi : matchesScript c .chinese = true := by
    simp [matchesScript, script_ranges]; omega
  have hkor : matchesScript c .korean = false := by
    simp [matchesScript, script_ranges]; omega
  have hara : matchesScript c .arabic = false := by
    simp [matchesScript, script_ranges]; omega
  have hcyr : matchesScript c .cyrillic = false := by
    simp [matchesScript, script_ranges]; omega
  have hdev : matchesScript c .devanagari = false := by
    simp [matchesScript, script_ranges]; omega
  have htha : matchesScript c .thai = false := by
    simp [matchesScript, script_ranges]; omega
  simp [countChar, scriptOrder, hlat, hjap, hchi, hkor, hara, hcyr, hdev, htha]

theorem foldl_countChar_cjk :
    ∀ (text : List ℕ) (k : ℕ), (∀ c ∈ text, 0x4E00 ≤ c ∧ c ≤ 0x9FAF) →
      text.foldl countChar [(Script.japanese, k), (Script.chinese, k)]
        = [(Script.japanese, k + text.length), (Script.chinese, k + text.length)]
  | [], k, _ => by simp
  | c :: rest, k, h => by
    rw [List.foldl_cons, countChar_cjk (h c (List.mem_cons_self c rest)).1
      (h c (List.mem_cons_self c rest)).2]
    rw [show bump (bump [(Script.japanese, k), (Script.chinese, k)] .japanese) .chinese
        = [(Script.japanese, k + 1), (Script.chinese, k + 1)] from rfl]
    rw [foldl_countChar_cjk rest (k + 1) (fun x hx => h x (List.mem_cons_of_mem c hx))]
    simp [List.length_cons]
    omega

/-- C10: a non-empty string of CJK unified ideographs in `0x4E00`-`0x9FAF`
classifies as japanese: every such character increments both the japanese
and the chinese counter (the ranges overlap, and the inner `break` only
stops further ranges of the same script), and the resulting tie goes to
japanese, whose counter was created first (table order within one
character). -/
theorem C10_cjk_text_is_japanese (text : List ℕ) (hne : text ≠ [])
    (h : ∀ c ∈ text, 0x4E00 ≤ c ∧ c ≤ 0x9FAF) :
    detect_script text = Script.japanese := by
  obtain ⟨c, rest, rfl⟩ := List.exists_cons_of_ne_nil hne
  have hcounts : scriptCounts (c :: rest)
      = [(Script.japanese, 1 + rest.length), (Script.chinese, 1 + rest.length)] := by
    unfold scriptCounts
    rw [List.foldl_cons, countChar_cjk (h c (List.mem_cons_self c rest)).1
      (h c (List.mem_cons_self c rest)).2]
    rw [show bump (bump ([] : List (Script × ℕ)) .japanese) .chinese
        = [(Script.japanese, 1), (Script.chinese, 1)] from rfl]
    exact foldl_countChar_cjk rest 1 (fun x hx => h x (List.mem_cons_of_mem c hx))
  unfold detect_script
  rw [if_neg (List.cons_ne_nil c rest)]
  simp only [hcounts, List.foldl_cons, List.foldl_nil, lt_irrefl, if_neg]
  simp

/-- Witness for C10: the single ideograph `0x4E00` (一). -/
theorem C10_cjk_text_is_japanese_witness : detect_script [0x4E00] = Script.japanese :=
  C10_cjk_text_is_japanese [0x4E00] (by decide) (by decide)

theorem foldl_first_max :
    ∀ (rest : List (Script × ℕ)) (p : Script × ℕ),
      ∃ l1 q l2, p :: rest = l1 ++ q :: l2
        ∧ rest.foldl (fun best q => if best.2 < q.2 then q else best) p = q
        ∧ (∀ x ∈ l1, x.2 < q.2) ∧ (∀ x ∈ l2, x.2 ≤ q.2)
  | [], p => ⟨[], p, [], rfl, rfl, by simp, by simp⟩
  | r :: rest, p => by
    rw [List.foldl_cons]
    by_cases hc : p.2 < r.2
    · rw [if_pos hc]
      obtain ⟨l1, q, l2, hsplit, hfold, hl1, hl2⟩ := foldl_first_max rest r
      refine ⟨p :: l1, q, l2, by rw [List.cons_append, ← hsplit], hfold, ?_, hl2⟩
      intro x hx
      rcases List.mem_cons.mp hx with rfl | hx
      · have hrq : r.2 ≤ q.2 := by
          cases l1 with
          | nil =>
            injection hsplit with he _
            exact he ▸ le_rfl
          | cons a l1' =>
            injection hsplit with he _
            exact le_of_lt (he ▸ hl1 a (List.mem_cons_self a l1'))
        exact lt_of_lt_of_le hc hrq
      · exact hl1 x hx
    · rw [if_neg hc]
      obtain ⟨l1, q, l2, hsplit, hfold, hl1, hl2⟩ := foldl_first_max rest p
      cases l1 with
      | nil =>
        injection hsplit with he htail
        refine ⟨[], q, r :: l2, by rw [List.nil_append, ← he, ← htail], hfold, by simp, ?_⟩
        intro x hx
        rcases List.mem_cons.mp hx with rfl | hx
        · exact he ▸ le_of_not_lt hc
        · exact hl2 x hx
      | cons a l1' =>
        injection hsplit with he htail
        refine ⟨p :: r :: l1', q, l2, ?_, hfold, ?_, hl2⟩
        · rw [htail]
          simp
        · intro x hx
          rcases List.mem_cons.mp hx with rfl | hx
          · exact he ▸ hl1 a (List.mem_cons_self a l1')
          · rcases List.mem_cons.mp hx with rfl | hx
            · exact lt_of_le_of_lt (le_of_not_lt hc)
                (he ▸ hl1 a (List.mem_cons_self a l1'))
            · exact hl1 x (List.mem_cons_of_mem a hx)

/-- C3 (amended): when the counters are non-empty, `detect_script`
returns the script of the first entry, in counter *insertion* order (the
order in which scripts first matched during the scan, table order within
one character), that attains the maximal count — not the first script in
table declaration order. -/
theorem C3_detect_script_first_inserted_max (text : List ℕ) (p : Script × ℕ)
    (rest : List (Script × ℕ)) (h : scriptCounts text = p :: rest) :
    ∃ l1 q l2, scriptCounts text = l1 ++ q :: l2 ∧ detect_script text = q.1
      ∧ (∀ x ∈ l1, x.2 < q.2) ∧ (∀ x ∈ l2, x.2 ≤ q.2) := by
  have htext : text ≠ [] := by
    intro he
    rw [he] at h
    simp [scriptCounts] at h
  obtain ⟨l1, q, l2, hsplit, hfold, hl1, hl2⟩ := foldl_first_max rest p
  refine ⟨l1, q, l2, by rw [h, hsplit], ?_, hl1, hl2⟩
  unfold detect_script
  rw [if_neg htext]
  simp only [h]
  exact congrArg Prod.fst hfold

/-- Witness for C3's amended theorem, at the two-character text
`[0x431, 0x61]` (Cyrillic б then Latin a). -/
theorem C3_detect_script_first_inserted_max_witness :
    ∃ l1 q l2, scriptCounts [1073, 97] = l1 ++ q :: l2
      ∧ detect_script [1073, 97] = q.1
      ∧ (∀ x ∈ l1, x.2 < q.2) ∧ (∀ x ∈ l2, x.2 ≤ q.2) :=
  C3_detect_script_first_inserted_max [1073, 97] (Script.cyrillic, 1)
    [(Script.latin, 1)] (by decide)

/-- Counterexample to C3 as stated: in `[0x431, 0x61]` (Cyrillic б then
Latin a) the cyrillic and latin counters tie at 1; latin is declared
earlier in the fixed table (index 0 versus 5), yet the classifier returns
cyrillic, because character order made cyrillic's counter the first
inserted. -/
theorem C3_tie_not_table_order_counterexample :
    scriptCounts [1073, 97] = [(Script.cyrillic, 1), (Script.latin, 1)]
    ∧ detect_script [1073, 97] = Script.cyrillic
    ∧ List.indexOf Script.latin scriptOrder = 0
    ∧ List.indexOf Script.cyrillic scriptOrder = 5 := by
  decide

/-! ### The heading-plausibility pre-filters -/

/-- C7: the shared pre-filters of `is_likely_heading_by_script` reject —
before any script-specific logic — text whose trimmed length is below 2,
above the script cap (50 for japanese, 100 otherwise), or ending in one
of the script's sentence terminators. -/
theorem C7_shared_prefilters (text : List ℕ) (script : Script)
    (h : (pyStrip text).length < 2
      ∨ (if script = Script.japanese then 50 else 100) < (pyStrip text).length
      ∨ (sentence_endings script).any (fun e => pyEndsWith (pyStrip text) e) = true) :
    is_likely_heading_by_script text script = false := by
  unfold is_likely_heading_by_script
  by_cases h1 : (pyStrip text).length < 2
  · simp [h1]
  · rcases h with h | h | h
    · exact absurd h h1
    · simp [h1, h]
    · by_cases h2 : (if script = Script.japanese then 50 else 100) < (pyStrip text).length
      · simp [h1, h2]
      · simp [h1, h2, h]

/-- Witness for C7: `"Done."` ends with the latin terminator `"."`. -/
theorem C7_shared_prefilters_witness :
    is_likely_heading_by_script (codes "Done.") Script.latin = false :=
  C7_shared_prefilters (codes "Done.") Script.latin (Or.inr (Or.inr (by decide)))

/-! ### The font-size clusterer -/

theorem mean_le_of_forall_le {a : ℚ} {l : List ℚ} (h : ∀ x ∈ l, x ≤ a) :
    (a + l.sum) / (1 + (l.length : ℚ)) ≤ a := by
  have hpos : (0 : ℚ) < 1 + (l.length : ℚ) := by positivity
  rw [div_le_iff hpos]
  have hsum : l.sum ≤ (l.length : ℚ) * a := by
    simpa [nsmul_eq_mul] using List.sum_le_card_nsmul l a h
  nlinarith [hsum]

theorem lt_mean_of_forall_lt {s a : ℚ} {l : List ℚ} (ha : s < a) (h : ∀ x ∈ l, s ≤ x) :
    s < (a + l.sum) / (1 + (l.length : ℚ)) := by
  have hpos : (0 : ℚ) < 1 + (l.length : ℚ) := by positivity
  rw [lt_div_iff hpos]
  have hsum : (l.length : ℚ) * s ≤ l.sum := by
    simpa [nsmul_eq_mul] using List.card_nsmul_le_sum l s h
  nlinarith [hsum]

theorem gclusters_sorted :
    ∀ (rest : List ℚ) (head : ℚ) (acc : List ℚ) (eps : ℚ),
      (∀ x ∈ acc, x ≤ head) →
      (∀ y ∈ rest, y < head) →
      (∀ y ∈ rest, ∀ x ∈ acc, y < x) →
      rest.Pairwise (· > ·) →
      (gclusters head acc rest eps).Pairwise (· > ·)
        ∧ ∀ z ∈ gclusters head acc rest eps, z ≤ head
  | [], head, acc, eps, h1, _, _, _ => by
    constructor
    · simp [gclusters]
    · intro z hz
      simp only [gclusters, List.mem_singleton] at hz
      rw [hz]
      exact mean_le_of_forall_le h1
  | s :: rest', head, acc, eps, h1, h2, h3, h4 => by
    obtain ⟨hs_rest, h4'⟩ := List.pairwise_cons.mp h4
    simp only [gclusters]
    by_cases hceps : |head - s| ≤ eps
    · rw [if_pos hceps]
      have hrec := gclusters_sorted rest' head (s :: acc) eps
        (fun x hx => by
          rcases List.mem_cons.mp hx with rfl | hx
          · exact le_of_lt (h2 x (List.mem_cons_self x rest'))
          · exact h1 x hx)
        (fun y hy => h2 y (List.mem_cons_of_mem s hy))
        (fun y hy x hx => by
          rcases List.mem_cons.mp hx with rfl | hx
          · exact hs_rest y hy
          · exact h3 y (List.mem_cons_of_mem s hy) x hx)
        h4'
      exact hrec
    · rw [if_neg hceps]
      have hrec := gclusters_sorted rest' s [] eps (by simp) hs_rest (by simp) h4'
      have hmean_le : (head + acc.sum) / (1 + (acc.length : ℚ)) ≤ head :=
        mean_le_of_forall_le h1
      have hs_lt_mean : s < (head + acc.sum) / (1 + (acc.length : ℚ)) :=
        lt_mean_of_forall_lt (h2 s (List.mem_cons_self s rest'))
          (fun x hx => le_of_lt (h3 s (List.mem_cons_self s rest') x hx))
      constructor
      · exact List.pairwise_cons.mpr
          ⟨fun z hz => lt_of_le_of_lt (hrec.2 z hz) hs_lt_mean, hrec.1⟩
      · intro z hz
        rcases List.mem_cons.mp hz with rfl | hz
        · exact hmean_le
        · exact le_of_lt (lt_of_le_of_lt (hrec.2 z hz)
            (h2 s (List.mem_cons_self s rest')))

theorem gclusters_length_le :
    ∀ (rest : List ℚ) (head : ℚ) (acc : List ℚ) (eps : ℚ),
      (gclusters head acc rest eps).length ≤ 1 + rest.length
  | [], _, _, _ => by simp [gclusters]
  | s :: rest', head, acc, eps => by
    simp only [gclusters]
    by_cases hceps : |head - s| ≤ eps
    · rw [if_pos hceps]
      have := gclusters_length_le rest' head (s :: acc) eps
      simp only [List.length_cons]
      omega
    · rw [if_neg hceps]
      have := gclusters_length_le rest' s [] eps
      simp only [List.length_cons]
      omega

theorem cluster_font_sizes_sorted (sizes : List ℚ) (eps : ℚ) :
    (cluster_font_sizes sizes eps).Pairwise (· > ·) := by
  unfold cluster_font_sizes
  by_cases hnil : sizes = []
  · simp [hnil]
  · rw [if_neg hnil]
    have hsorted : (List.insertionSort descLE sizes.dedup).Pairwise descLE :=
      List.sorted_insertionSort descLE sizes.dedup
    have hnodup : (List.insertionSort descLE sizes.dedup).Nodup :=
      (List.perm_insertionSort descLE sizes.dedup).nodup_iff.mpr (List.nodup_dedup sizes)
    have hstrict : (List.insertionSort descLE sizes.dedup).Pairwise (· > ·) :=
      (hsorted.and hnodup).imp (fun hab => lt_of_le_of_ne hab.1 (Ne.symm hab.2))
    cases hu : List.insertionSort descLE sizes.dedup with
    | nil => exact List.Pairwise.nil
    | cons x t =>
      cases t with
      | nil => exact List.pairwise_singleton _ x
      | cons y rest =>
        rw [hu] at hstrict
        obtain ⟨hx, hyrest⟩ := List.pairwise_cons.mp hstrict
        have hg := gclusters_sorted (y :: rest) x [] eps (by simp) hx (by simp) hyrest
        have hsg : (gclusters x [] (y :: rest) eps).Pairwise descLE :=
          hg.1.imp (fun hab => le_of_lt hab)
        show (List.insertionSort descLE (gclusters x [] (y :: rest) eps)).Pairwise (· > ·)
        rw [List.Sorted.insertionSort_eq hsg]
        exact hg.1

theorem cluster_font_sizes_length_le (sizes : List ℚ) (eps : ℚ) :
    (cluster_font_sizes sizes eps).length ≤ sizes.dedup.length := by
  unfold cluster_font_sizes
  by_cases hnil : sizes = []
  · simp [hnil]
  · rw [if_neg hnil]
    have hlen : (List.insertionSort descLE sizes.dedup).length = sizes.dedup.length :=
      (List.perm_insertionSort descLE sizes.dedup).length_eq
    cases hu : List.insertionSort descLE sizes.dedup with
    | nil =>
      rw [hu] at hlen
      show ([] : List ℚ).length ≤ sizes.dedup.length
      simp at hlen ⊢
    | cons x t =>
      cases t with
      | nil =>
        rw [hu] at hlen
        show [x].length ≤ sizes.dedup.length
        simp at hlen ⊢
        omega
      | cons y rest =>
        rw [hu] at hlen
        show (List.insertionSort descLE (gclusters x [] (y :: rest) eps)).length
          ≤ sizes.dedup.length
        calc (List.insertionSort descLE (gclusters x [] (y :: rest) eps)).length
            = (gclusters x [] (y :: rest) eps).length :=
              (List.perm_insertionSort descLE _).length_eq
          _ ≤ 1 + (y :: rest).length := gclusters_length_le _ _ _ _
          _ ≤ sizes.dedup.length := by
              rw [← hlen]
              simp only [List.length_cons]
              omega

/-- C2: the clusterer always returns a strictly descending list; on
`[24, 23.5, 23, 12, 12, 10]` with epsilon 1.5 it returns
`[23.5, 12, 10]`, and on a non-empty run of one repeated value it returns
that one-element value. -/
theorem C2_cluster_font_sizes_strictly_descending (sizes : List ℚ) (x : ℚ) (n : ℕ) :
    (cluster_font_sizes sizes (3 / 2)).Pairwise (· > ·)
    ∧ cluster_font_sizes [24, 47 / 2, 23, 12, 12, 10] (3 / 2) = [47 / 2, 12, 10]
    ∧ cluster_font_sizes (List.replicate (n + 1) x) (3 / 2) = [x] := by
  refine ⟨cluster_font_sizes_sorted sizes (3 / 2), by decide, ?_⟩
  have hded : (List.replicate (n + 1) x).dedup = [x] := by
    induction n with
    | zero => simp
    | succ k ih =>
      rw [List.replicate_succ, List.dedup_cons_of_mem (by simp [List.mem_replicate])]
      exact ih
  unfold cluster_font_sizes
  rw [if_neg (by simp), hded]
  rfl

/-! ### The heading level classifier -/

theorem closestAux_spec (f : ℚ) :
    ∀ (l : List ℚ) (i bi : ℕ) (bd : ℚ),
      (closestAux f l i bd bi = (bd, bi) ∧ ∀ x ∈ l, bd ≤ |f - x|)
      ∨ (∃ l1 x l2, l = l1 ++ x :: l2
          ∧ closestAux f l i bd bi = (|f - x|, i + l1.length)
          ∧ |f - x| < bd
          ∧ (∀ y ∈ l1, |f - x| < |f - y|)
          ∧ (∀ y ∈ l2, |f - x| ≤ |f - y|))
  | [], i, bi, bd => Or.inl ⟨rfl, by simp⟩
  | c :: cs, i, bi, bd => by
    by_cases h : |f - c| < bd
    · rcases closestAux_spec f cs (i + 1) i |f - c| with ⟨heq, hall⟩ |
        ⟨m1, z, m2, hcs, heq, hlt, hm1, hm2⟩
      · refine Or.inr ⟨[], c, cs, by simp, ?_, h, by simp, hall⟩
        show (if |f - c| < bd then closestAux f cs (i + 1) |f - c| i
          else closestAux f cs (i + 1) bd bi) = (|f - c|, i + ([] : List ℚ).length)
        rw [if_pos h, heq]
        simp
      · refine Or.inr ⟨c :: m1, z, m2, by rw [List.cons_append, ← hcs], ?_,
          lt_trans hlt h, ?_, hm2⟩
        · show (if |f - c| < bd then closestAux f cs (i + 1) |f - c| i
            else closestAux f cs (i + 1) bd bi) = (|f - z|, i + (c :: m1).length)
          rw [if_pos h, heq]
          congr 1
          simp only [List.length_cons]
          omega
        · intro y hy
          rcases List.mem_cons.mp hy with rfl | hy
          · exact hlt
          · exact hm1 y hy
    · rcases closestAux_spec f cs (i + 1) bi bd with ⟨heq, hall⟩ |
        ⟨m1, z, m2, hcs, heq, hlt, hm1, hm2⟩
      · refine Or.inl ⟨?_, ?_⟩
        · show (if |f - c| < bd then closestAux f cs (i + 1) |f - c| i
            else closestAux f cs (i + 1) bd bi) = (bd, bi)
          rw [if_neg h, heq]
        · intro x hx
          rcases List.mem_cons.mp hx with rfl | hx
          · exact le_of_not_lt h
          · exact hall x hx
      · refine Or.inr ⟨c :: m1, z, m2, by rw [List.cons_append, ← hcs], ?_, hlt, ?_, hm2⟩
        · show (if |f - c| < bd then closestAux f cs (i + 1) |f - c| i
            else closestAux f cs (i + 1) bd bi) = (|f - z|, i + (c :: m1).length)
          rw [if_neg h, heq]
          congr 1
          simp only [List.length_cons]
          omega
        · intro y hy
          rcases List.mem_cons.mp hy with rfl | hy
          · exact lt_of_lt_of_le hlt (le_of_not_lt h)
          · exact hm1 y hy

theorem first_argmin_unique (f : ℚ) :
    ∀ (A : List ℚ) (x : ℚ) (B A' : List ℚ) (x' : ℚ) (B' : List ℚ),
      A ++ x :: B = A' ++ x' :: B' →
      (∀ y ∈ A, |f - x| < |f - y|) → (∀ y ∈ B, |f - x| ≤ |f - y|) →
      (∀ y ∈ A', |f - x'| < |f - y|) → (∀ y ∈ B', |f - x'| ≤ |f - y|) →
      A.length = A'.length ∧ x = x'
  | [], x, B, A', x', B', heq, hA, hB, hA', hB' => by
    cases A' with
    | nil =>
      injection heq with h1 _
      exact ⟨rfl, h1⟩
    | cons a A'' =>
      rw [List.nil_append, List.cons_append] at heq
      injection heq with h1 h2
      exfalso
      have hx'B : x' ∈ B := by
        rw [h2]
        exact List.mem_append_right A'' (List.mem_cons_self x' B')
      have h1' : |f - x| ≤ |f - x'| := hB x' hx'B
      have h2' : |f - x'| < |f - x| := h1 ▸ hA' a (List.mem_cons_self a A'')
      exact absurd h1' (not_le_of_lt h2')
  | a :: A₀, x, B, A', x', B', heq, hA, hB, hA', hB' => by
    cases A' with
    | nil =>
      rw [List.nil_append, List.cons_append] at heq
      injection heq with h1 h2
      exfalso
      have hxB' : x ∈ B' := by
        rw [← h2]
        exact List.mem_append_right A₀ (List.mem_cons_self x B)
      have h1' : |f - x'| ≤ |f - x| := hB' x hxB'
      have h2' : |f - x| < |f - x'| := h1 ▸ hA a (List.mem_cons_self a A₀)
      exact absurd h1' (not_le_of_lt h2')
    | cons a' A₁ =>
      rw [List.cons_append, List.cons_append] at heq
      injection heq with h1 h2
      have hrec := first_argmin_unique f A₀ x B A₁ x' B' h2
        (fun y hy => hA y (List.mem_cons_of_mem a hy)) hB
        (fun y hy => hA' y (List.mem_cons_of_mem a' hy)) hB'
      exact ⟨by simp [List.length_cons, hrec.1], hrec.2⟩

theorem cons_mean_eq (a : ℚ) (cs : List ℚ) :
    (a + cs.sum) / (1 + (cs.length : ℚ)) = (a :: cs).sum / (((a :: cs).length : ℚ)) := by
  rw [List.sum_cons, List.length_cons]
  push_cast
  ring_nf

/-- C1 (amended): with the tier nearest to `s` (first index on ties) at
position `l1.length`, the classifier yields H1/H2/H3 for in-tolerance
indices 0, 1 and 2-4; in *every* other case — the size outside tolerance
of all tiers, but also a within-tolerance nearest index above 4, where
the Python branch chain falls through — the bold escape applies (bold and
`s ≥ mean − 1` gives H3), and otherwise the result is `none`. -/
theorem C1_get_heading_level_nearest (f : ℚ) (b : Bool) (l1 : List ℚ) (x : ℚ)
    (l2 : List ℚ)
    (hearlier : ∀ y ∈ l1, |f - x| < |f - y|)
    (hlater : ∀ y ∈ l2, |f - x| ≤ |f - y|) :
    get_heading_level f (l1 ++ x :: l2) b 2 =
      if |f - x| ≤ 2 ∧ l1.length = 0 then some Level.H1
      else if |f - x| ≤ 2 ∧ l1.length = 1 then some Level.H2
      else if |f - x| ≤ 2 ∧ l1.length ≤ 4 then some Level.H3
      else if b = true ∧ (l1 ++ x :: l2).sum / (((l1 ++ x :: l2).length : ℚ)) - 1 ≤ f
        then some Level.H3
      else none := by
  cases l1 with
  | nil =>
    have hr : closestAux f l2 1 |f - x| 0 = (|f - x|, 0) := by
      rcases closestAux_spec f l2 1 0 |f - x| with ⟨heq, _⟩ |
        ⟨m1, z, m2, hcs, _, hlt, _, _⟩
      · exact heq
      · exfalso
        have hzmem : z ∈ l2 := by
          rw [hcs]
          exact List.mem_append_right m1 (List.mem_cons_self z m2)
        exact absurd (hlater z hzmem) (not_le_of_lt hlt)
    show (let r := closestAux f l2 1 |f - x| 0
      if r.1 ≤ 2 ∧ r.2 = 0 then some Level.H1
      else if r.1 ≤ 2 ∧ r.2 = 1 then some Level.H2
      else if r.1 ≤ 2 ∧ r.2 ≤ 4 then some Level.H3
      else if b = true ∧ (x + l2.sum) / (1 + (l2.length : ℚ)) - 1 ≤ f then some Level.H3
      else none) = _
    rw [hr, cons_mean_eq]
    rfl
  | cons a l1' =>
    have hr : closestAux f (l1' ++ x :: l2) 1 |f - a| 0 = (|f - x|, l1'.length + 1) := by
      rcases closestAux_spec f (l1' ++ x :: l2) 1 0 |f - a| with ⟨_, hall⟩ |
        ⟨m1, z, m2, hcs, heq, hlt, hm1, hm2⟩
      · exfalso
        have h1' : |f - a| ≤ |f - x| := hall x
          (List.mem_append_right l1' (List.mem_cons_self x l2))
        have h2' : |f - x| < |f - a| := hearlier a (List.mem_cons_self a l1')
        exact absurd h1' (not_le_of_lt h2')
      · have huniq := first_argmin_unique f (a :: m1) z m2 (a :: l1') x l2
          (by rw [List.cons_append, ← hcs, List.cons_append])
          (fun y hy => by
            rcases List.mem_cons.mp hy with rfl | hy
            · exact hlt
            · exact hm1 y hy)
          hm2 hearlier hlater
        have hlen : m1.length = l1'.length := by
          have := huniq.1
          simp only [List.length_cons] at this
          omega
        rw [heq, huniq.2, hlen]
        congr 1
        omega
    show (let r := closestAux f (l1' ++ x :: l2) 1 |f - a| 0
      if r.1 ≤ 2 ∧ r.2 = 0 then some Level.H1
      else if r.1 ≤ 2 ∧ r.2 = 1 then some Level.H2
      else if r.1 ≤ 2 ∧ r.2 ≤ 4 then some Level.H3
      else if b = true ∧ (a + (l1' ++ x :: l2).sum) / (1 + ((l1' ++ x :: l2).length : ℚ)) - 1 ≤ f
        then some Level.H3
      else none) = _
    rw [hr, cons_mean_eq]
    rfl

/-- Counterexample to C1 as stated: with tiers
`[10, 9.9, 9.8, 9.7, 9.6, 9.5]` and size `9.5`, the nearest tier is index
5 with difference 0 (within tolerance), so the claim demands "not a
heading"; the code's branch chain falls through to the bold escape and
returns H3 for a bold line. -/
theorem C1_bold_escape_within_tolerance_counterexample :
    closestAux (19 / 2) [99 / 10, 49 / 5, 97 / 10, 48 / 5, 19 / 2] 1 |19 / 2 - 10| 0
      = ((0 : ℚ), 5)
    ∧ get_heading_level (19 / 2) [10, 99 / 10, 49 / 5, 97 / 10, 48 / 5, 19 / 2] true 2
      = some Level.H3 := by
  constructor <;> decide

/-- Witness for C1's amended theorem: tiers `[24, 18, 12]` and size
`19.9` classify as H2 (nearest tier 18 at index 1, difference 1.9). -/
theorem C1_get_heading_level_nearest_witness :
    get_heading_level (199 / 10) [24, 18, 12] false 2 = some Level.H2 :=
  (C1_get_heading_level_nearest (199 / 10) false [24] 18 [12]
    (by decide) (by decide)).trans (by decide)

/-! ### The fallback chain for tier centers -/

theorem getD_mem {α : Type _} (l : List α) (i : ℕ) (d : α) (h : i < l.length) :
    l.getD i d ∈ l := by
  unfold List.getD
  rw [List.get?_eq_get h]
  exact List.get_mem l i h

theorem dedup_length_le_of_subset {l₁ l₂ : List ℚ} (h : l₁ ⊆ l₂) :
    l₁.dedup.length ≤ l₂.dedup.length := by
  have hsub : l₁.dedup ⊆ l₂.dedup := fun x hx =>
    List.mem_dedup.mpr (h (List.mem_dedup.mp hx))
  exact (List.subperm_of_subset (List.nodup_dedup l₁) hsub).length_le

theorem get_font_size_outliers_length_le (l : List ℚ) (p : ℕ) :
    (get_font_size_outliers l p).length ≤ l.dedup.length := by
  unfold get_font_size_outliers
  by_cases hnil : l = []
  · simp [hnil]
  · rw [if_neg hnil]
    calc (List.insertionSort descLE _).length
        = (l.dedup.filter _).length := (List.perm_insertionSort descLE _).length_eq
      _ ≤ l.dedup.length := List.length_filter_le _ _

theorem outliers_all_same {l : List ℚ} {s : ℚ} (hded : l.dedup = [s]) (p : ℕ) :
    get_font_size_outliers l p = [] := by
  have hne : l ≠ [] := by
    intro h0
    rw [h0] at hded
    simp at hded
  have hall : ∀ x ∈ l, x = s := by
    intro x hx
    have hx' := List.mem_dedup.mpr hx
    rw [hded] at hx'
    simpa using hx'
  have hsortmem : ∀ x ∈ List.insertionSort (· ≤ ·) l, x = s := fun x hx =>
    hall x ((List.perm_insertionSort _ l).mem_iff.mp hx)
  have hthr : (if l.length * p / 100 < (List.insertionSort (· ≤ ·) l).length
      then (List.insertionSort (· ≤ ·) l).getD (l.length * p / 100) 0
      else (List.insertionSort (· ≤ ·) l).getLastD 0) = s := by
    by_cases hidx : l.length * p / 100 < (List.insertionSort (· ≤ ·) l).length
    · rw [if_pos hidx]
      exact hsortmem _ (getD_mem _ _ 0 hidx)
    · rw [if_neg hidx]
      cases hs : List.insertionSort (· ≤ ·) l with
      | nil =>
        exfalso
        have hlen := (List.perm_insertionSort (· ≤ ·) l).length_eq
        rw [hs] at hlen
        exact hne (List.eq_nil_of_length_eq_zero hlen.symm)
      | cons y t =>
        have hmem : (y :: t).getLastD 0 ∈ y :: t := by
          rw [List.getLastD_cons]
          exact List.getLastD_mem_cons t y
        rw [← hs] at hmem
        exact hsortmem _ (by rw [hs]; rw [hs] at hmem; exact hmem)
  unfold get_font_size_outliers
  rw [if_neg hne]
  show List.insertionSort descLE
      (List.filter
        (fun v => decide ((if l.length * p / 100 < (List.insertionSort (· ≤ ·) l).length
            then (List.insertionSort (· ≤ ·) l).getD (l.length * p / 100) 0
            else (List.insertionSort (· ≤ ·) l).getLastD 0) < v)) l.dedup) = []
  simp only [hthr, hded]
  simp [List.insertionSort]

/-- C6: with exactly one distinct font size `s` in the document the
fallback chain yields exactly the three tiers `[s, s-1, s-2]`; with
exactly two distinct sizes `s0 > s1` the third tier is synthesized as
`s1 - 1`. -/
theorem C6_degenerate_fallback_tiers :
    (∀ (blocks : List Line) (s : ℚ),
      List.insertionSort descLE (allFontSizes blocks).dedup = [s] →
      clusteredSizes blocks = [s, s - 1, s - 2])
    ∧ (∀ (blocks : List Line) (s0 s1 : ℚ),
      List.insertionSort descLE (allFontSizes blocks).dedup = [s0, s1] →
      clusteredSizes blocks = [s0, s1, s1 - 1]) := by
  have hsub : ∀ blocks : List Line, potentialHeadingSizes blocks ⊆ allFontSizes blocks := by
    intro blocks x hx
    unfold potentialHeadingSizes at hx
    obtain ⟨b, hb, rfl⟩ := List.mem_map.mp hx
    exact List.mem_map_of_mem _ (List.mem_of_mem_filter hb)
  constructor
  · intro blocks s h
    have hperm := List.perm_insertionSort descLE (allFontSizes blocks).dedup
    rw [h] at hperm
    have hded : (allFontSizes blocks).dedup = [s] := hperm.symm.eq_singleton
    have hne : allFontSizes blocks ≠ [] := by
      intro h0
      rw [h0] at hded
      simp at hded
    have hdedpot : (potentialHeadingSizes blocks).dedup.length ≤ 1 := by
      have := dedup_length_le_of_subset (hsub blocks)
      rw [hded] at this
      simpa using this
    have hc1 : (cluster_font_sizes (potentialHeadingSizes blocks) (3 / 2)).length ≤ 1 :=
      le_trans (cluster_font_sizes_length_le _ _) hdedpot
    have hout := outliers_all_same hded 75
    simp only [clusteredSizes]
    have hc2 : (if (cluster_font_sizes (potentialHeadingSizes blocks) (3 / 2)).length < 2 then
          if get_font_size_outliers (allFontSizes blocks) 75 ≠ [] then
            (get_font_size_outliers (allFontSizes blocks) 75).take 3
          else cluster_font_sizes (potentialHeadingSizes blocks) (3 / 2)
        else cluster_font_sizes (potentialHeadingSizes blocks) (3 / 2))
        = cluster_font_sizes (potentialHeadingSizes blocks) (3 / 2) := by
      rw [if_pos (by omega :
        (cluster_font_sizes (potentialHeadingSizes blocks) (3 / 2)).length < 2), hout]
      rw [if_neg (by simp : ¬(([] : List ℚ) ≠ []))]
    rw [hc2]
    rw [if_pos (And.intro (by omega :
      (cluster_font_sizes (potentialHeadingSizes blocks) (3 / 2)).length < 3) hne), h]
  · intro blocks s0 s1 h
    have hperm := List.perm_insertionSort descLE (allFontSizes blocks).dedup
    rw [h] at hperm
    have hdedlen : (allFontSizes blocks).dedup.length = 2 := by
      have := hperm.length_eq
      simpa using this.symm
    have hne : allFontSizes blocks ≠ [] := by
      intro h0
      rw [h0] at hdedlen
      simp at hdedlen
    have hdedpot : (potentialHeadingSizes blocks).dedup.length ≤ 2 := by
      have := dedup_length_le_of_subset (hsub blocks)
      omega
    have hc1 : (cluster_font_sizes (potentialHeadingSizes blocks) (3 / 2)).length ≤ 2 :=
      le_trans (cluster_font_sizes_length_le _ _) hdedpot
    have hout : (get_font_size_outliers (allFontSizes blocks) 75).length ≤ 2 := by
      have := get_font_size_outliers_length_le (allFontSizes blocks) 75
      omega
    simp only [clusteredSizes]
    set c2 := (if (cluster_font_sizes (potentialHeadingSizes blocks) (3 / 2)).length < 2 then
        if get_font_size_outliers (allFontSizes blocks) 75 ≠ [] then
          (get_font_size_outliers (allFontSizes blocks) 75).take 3
        else cluster_font_sizes (potentialHeadingSizes blocks) (3 / 2)
      else cluster_font_sizes (potentialHeadingSizes blocks) (3 / 2)) with hc2def
    have hc2len : c2.length < 3 := by
      rw [hc2def]
      by_cases h12 : (cluster_font_sizes (potentialHeadingSizes blocks) (3 / 2)).length < 2
      · rw [if_pos h12]
        by_cases hfo : get_font_size_outliers (allFontSizes blocks) 75 ≠ []
        · rw [if_pos hfo]
          have hlt := List.length_take 3 (get_font_size_outliers (allFontSizes blocks) 75)
          omega
        · rw [if_neg hfo]
          omega
      · rw [if_neg h12]
        omega
    rw [if_pos (And.intro hc2len hne), h]

/-- Witness for C6: a one-line document of size 12 yields tiers
`[12, 11, 10]`; a two-line document of sizes 14 and 12 yields
`[14, 12, 11]`. -/
theorem C6_degenerate_fallback_tiers_witness :
    clusteredSizes [⟨codes "один", 12, false, 1⟩] = [12, 11, 10]
    ∧ clusteredSizes [⟨codes "ab", 14, false, 1⟩, ⟨codes "cd", 12, false, 1⟩]
      = [14, 12, 11] :=
  ⟨C6_degenerate_fallback_tiers.1 [⟨codes "один", 12, false, 1⟩] 12 (by decide),
   C6_degenerate_fallback_tiers.2 [⟨codes "ab", 14, false, 1⟩, ⟨codes "cd", 12, false, 1⟩]
     14 12 (by decide)⟩

/-! ### The outline assembler: deduplication, capping, determinism -/

theorem emitLoop_pairwise (cl ol : List ℚ) :
    ∀ (blocks : List Line) (hs : List Heading) (seen : List (List ℕ)),
      (∀ h ∈ hs, normL h.text ∈ seen) →
      hs.Pairwise (fun a b => normL a.text ≠ normL b.text) →
      (emitLoop cl ol blocks hs seen).Pairwise (fun a b => normL a.text ≠ normL b.text)
  | [], _, _, _, hpw => hpw
  | b :: rest, hs, seen, hmem, hpw => by
    simp only [emitLoop]
    by_cases hcand : is_likely_heading b.text = true ∨ b.fontsize ∈ ol
    · rw [if_neg (not_not_intro hcand)]
      by_cases hseen : normL b.text ∈ seen
      · rw [if_pos hseen]
        exact emitLoop_pairwise cl ol rest hs seen hmem hpw
      · rw [if_neg hseen]
        cases hlv : get_heading_level b.fontsize cl b.is_bold 2 with
        | none => exact emitLoop_pairwise cl ol rest hs seen hmem hpw
        | some lvl =>
          show (emitLoop cl ol rest (hs ++ [⟨lvl, pyStrip b.text, b.page⟩])
            (normL b.text :: seen)).Pairwise (fun a b => normL a.text ≠ normL b.text)
          refine emitLoop_pairwise cl ol rest
            (hs ++ [({ level := lvl, text := pyStrip b.text, page := b.page } : Heading)])
            (normL b.text :: seen) ?_ ?_
          · intro h hh
            rcases List.mem_append.mp hh with hh | hh
            · exact List.mem_cons_of_mem _ (hmem h hh)
            · rw [List.mem_singleton.mp hh]
              show normL (pyStrip b.text) ∈ normL b.text :: seen
              rw [normL_pyStrip]
              exact List.mem_cons_self _ _
          · rw [List.pairwise_append]
            refine ⟨hpw, by simp, ?_⟩
            intro a ha b' hb'
            rw [List.mem_singleton.mp hb']
            show normL a.text ≠ normL (pyStrip b.text)
            rw [normL_pyStrip]
            intro heq
            exact hseen (heq ▸ hmem a ha)
    · rw [if_pos hcand]
      exact emitLoop_pairwise cl ol rest hs seen hmem hpw

theorem emitLoop_mem (cl ol : List ℚ) :
    ∀ (blocks : List Line) (hs : List Heading) (seen : List (List ℕ)) (h : Heading),
      h ∈ emitLoop cl ol blocks hs seen →
      h ∈ hs ∨ ∃ l1 b l2 lvl, blocks = l1 ++ b :: l2
        ∧ (is_likely_heading b.text = true ∨ b.fontsize ∈ ol)
        ∧ get_heading_level b.fontsize cl b.is_bold 2 = some lvl
        ∧ h = ⟨lvl, pyStrip b.text, b.page⟩
        ∧ normL b.text ∉ seen
        ∧ ∀ b' ∈ l1, acceptsBlock cl ol b' = true → normL b'.text ≠ normL b.text
  | [], _, _, h, hh => Or.inl hh
  | b :: rest, hs, seen, h, hh => by
    simp only [emitLoop] at hh
    by_cases hcand : is_likely_heading b.text = true ∨ b.fontsize ∈ ol
    · rw [if_neg (not_not_intro hcand)] at hh
      by_cases hseen : normL b.text ∈ seen
      · rw [if_pos hseen] at hh
        rcases emitLoop_mem cl ol rest hs seen h hh with hl | ⟨l1, b0, l2, lvl, hsplit,
          hcand0, hlv0, hform, hns, hfirst⟩
        · exact Or.inl hl
        · refine Or.inr ⟨b :: l1, b0, l2, lvl, by rw [hsplit, List.cons_append],
            hcand0, hlv0, hform, hns, ?_⟩
          intro b' hb' hacc
          rcases List.mem_cons.mp hb' with rfl | hb'
          · intro heq
            exact hns (heq ▸ hseen)
          · exact hfirst b' hb' hacc
      · rw [if_neg hseen] at hh
        cases hlv : get_heading_level b.fontsize cl b.is_bold 2 with
        | none =>
          simp only [hlv] at hh
          rcases emitLoop_mem cl ol rest hs seen h hh with hl | ⟨l1, b0, l2, lvl, hsplit,
            hcand0, hlv0, hform, hns, hfirst⟩
          · exact Or.inl hl
          · refine Or.inr ⟨b :: l1, b0, l2, lvl, by rw [hsplit, List.cons_append],
              hcand0, hlv0, hform, hns, ?_⟩
            intro b' hb' hacc
            rcases List.mem_cons.mp hb' with rfl | hb'
            · exfalso
              have := (Bool.and_eq_true _ _).mp hacc
              rw [hlv] at this
              simp [acceptsBlock, hlv] at hacc
            · exact hfirst b' hb' hacc
        | some lvl =>
          simp only [hlv] at hh
          rcases emitLoop_mem cl ol rest (hs ++ [⟨lvl, pyStrip b.text, b.page⟩])
              (normL b.text :: seen) h hh with hl | ⟨l1, b0, l2, lvl0, hsplit,
            hcand0, hlv0, hform, hns, hfirst⟩
          · rcases List.mem_append.mp hl with hl | hl
            · exact Or.inl hl
            · refine Or.inr ⟨[], b, rest, lvl, by simp, hcand, hlv,
                List.mem_singleton.mp hl, hseen, by simp⟩
          · refine Or.inr ⟨b :: l1, b0, l2, lvl0, by rw [hsplit, List.cons_append],
              hcand0, hlv0, hform, fun hmem => hns (List.mem_cons_of_mem _ hmem), ?_⟩
            intro b' hb' hacc
            rcases List.mem_cons.mp hb' with rfl | hb'
            · intro heq
              exact hns (heq ▸ List.mem_cons_self _ _)
            · exact hfirst b' hb' hacc
    · rw [if_pos hcand] at hh
      rcases emitLoop_mem cl ol rest hs seen h hh with hl | ⟨l1, b0, l2, lvl, hsplit,
        hcand0, hlv0, hform, hns, hfirst⟩
      · exact Or.inl hl
      · refine Or.inr ⟨b :: l1, b0, l2, lvl, by rw [hsplit, List.cons_append],
          hcand0, hlv0, hform, hns, ?_⟩
        intro b' hb' hacc
        rcases List.mem_cons.mp hb' with rfl | hb'
        · exfalso
          have hsplit' := (Bool.and_eq_true _ _).mp hacc
          rcases Bool.or_eq_true _ _ |>.mp hsplit'.1 with hcc | hcc
          · exact hcand (Or.inl hcc)
          · exact hcand (Or.inr (of_decide_eq_true hcc))
        · exact hfirst b' hb' hacc

theorem cappedHeadings_subset (blocks : List Line) :
    cappedHeadings blocks ⊆ headingsRaw blocks := by
  intro a ha
  have hsortsub : sortedHeadings blocks ⊆ headingsRaw blocks :=
    (List.perm_insertionSort pageLevelLE (headingsRaw blocks)).subset
  unfold cappedHeadings at ha
  by_cases h30 : 30 < (sortedHeadings blocks).length
  · rw [if_pos h30] at ha
    have ha' := (List.perm_insertionSort pageLE _).subset ha
    rcases List.mem_append.mp ha' with h | h
    · rcases List.mem_append.mp h with h | h
      · exact hsortsub (((List.take_sublist _ _).trans (List.filter_sublist _)).subset h)
      · exact hsortsub (((List.take_sublist _ _).trans (List.filter_sublist _)).subset h)
    · exact hsortsub (((List.take_sublist _ _).trans (List.filter_sublist _)).subset h)
  · rw [if_neg h30] at ha
    exact hsortsub ha

theorem mem_take_filter {p : Heading → Bool} {l : List Heading} {n : ℕ} {a : Heading}
    (h : a ∈ (l.filter p).take n) : a ∈ l ∧ p a = true := by
  have h' := (List.take_sublist _ _).subset h
  exact ⟨(List.filter_sublist _).subset h', List.of_mem_filter h'⟩

/-- C4: no two headings of the produced outline share the same
case-folded, trimmed text, and every produced heading comes from the
first block — in extraction order — whose normalized text matches among
the blocks that pass the candidate filter and receive a level, so a
repeated heading text later in the document is dropped. -/
theorem C4_outline_dedup_first_occurrence (metaTitle stem : List ℕ) (blocks : List Line) :
    (extract_outline metaTitle stem blocks).outline.Pairwise
      (fun a b => normL a.text ≠ normL b.text)
    ∧ ∀ h ∈ (extract_outline metaTitle stem blocks).outline,
        ∃ l1 b l2 lvl, blocks = l1 ++ b :: l2
          ∧ (is_likely_heading b.text = true ∨ b.fontsize ∈ sizeOutliers70 blocks)
          ∧ get_heading_level b.fontsize (clusteredSizes blocks) b.is_bold 2 = some lvl
          ∧ h = ⟨lvl, pyStrip b.text, b.page⟩
          ∧ ∀ b' ∈ l1,
              acceptsBlock (clusteredSizes blocks) (sizeOutliers70 blocks) b' = true →
              normL b'.text ≠ normL b.text := by
  have hsym : Symmetric (fun a b : Heading => normL a.text ≠ normL b.text) :=
    fun a b hab he => hab he.symm
  have hraw_pw : (headingsRaw blocks).Pairwise (fun a b => normL a.text ≠ normL b.text) :=
    emitLoop_pairwise (clusteredSizes blocks) (sizeOutliers70 blocks) blocks [] []
      (by simp) List.Pairwise.nil
  have hsorted_pw : (sortedHeadings blocks).Pairwise
      (fun a b => normL a.text ≠ normL b.text) :=
    ((List.perm_insertionSort pageLevelLE (headingsRaw blocks)).pairwise_iff
      (fun {_ _} h he => h he.symm)).mpr hraw_pw
  constructor
  · show (cappedHeadings blocks).Pairwise (fun a b => normL a.text ≠ normL b.text)
    unfold cappedHeadings
    by_cases h30 : 30 < (sortedHeadings blocks).length
    · rw [if_pos h30]
      apply ((List.perm_insertionSort pageLE _).pairwise_iff (fun {_ _} h he => h he.symm)).mpr
      have hdiff : ∀ (p q : Level), p ≠ q →
          ∀ a, a ∈ ((sortedHeadings blocks).filter (fun h => decide (h.level = p))).take 5 ∨
               a ∈ ((sortedHeadings blocks).filter (fun h => decide (h.level = p))).take 10 ∨
               a ∈ ((sortedHeadings blocks).filter (fun h => decide (h.level = p))).take 15 →
          ∀ b, b ∈ ((sortedHeadings blocks).filter (fun h => decide (h.level = q))).take 5 ∨
               b ∈ ((sortedHeadings blocks).filter (fun h => decide (h.level = q))).take 10 ∨
               b ∈ ((sortedHeadings blocks).filter (fun h => decide (h.level = q))).take 15 →
          normL a.text ≠ normL b.text := by
        intro p q hpq a ha b hb
        have hamem : a ∈ sortedHeadings blocks ∧ a.level = p := by
          rcases ha with h | h | h <;>
            exact ⟨(mem_take_filter h).1, of_decide_eq_true (mem_take_filter h).2⟩
        have hbmem : b ∈ sortedHeadings blocks ∧ b.level = q := by
          rcases hb with h | h | h <;>
            exact ⟨(mem_take_filter h).1, of_decide_eq_true (mem_take_filter h).2⟩
        have hne : a ≠ b := by
          intro heq
          rw [heq] at hamem
          exact hpq (hamem.2 ▸ hbmem.2 ▸ rfl)
        exact hsorted_pw.forall hsym hamem.1 hbmem.1 hne
      rw [List.pairwise_append]
      refine ⟨?_, ?_, ?_⟩
      · rw [List.pairwise_append]
        refine ⟨List.Pairwise.sublist ((List.take_sublist _ _).trans
            (List.filter_sublist _)) hsorted_pw,
          List.Pairwise.sublist ((List.take_sublist _ _).trans
            (List.filter_sublist _)) hsorted_pw, ?_⟩
        intro a ha b hb
        exact hdiff Level.H1 Level.H2 (by simp) a (Or.inl ha) b (Or.inr (Or.inl hb))
      · exact List.Pairwise.sublist ((List.take_sublist _ _).trans
          (List.filter_sublist _)) hsorted_pw
      · intro a ha b hb
        rcases List.mem_append.mp ha with ha | ha
        · exact hdiff Level.H1 Level.H3 (by simp) a (Or.inl ha) b (Or.inr (Or.inr hb))
        · exact hdiff Level.H2 Level.H3 (by simp) a (Or.inr (Or.inl ha)) b
            (Or.inr (Or.inr hb))
    · rw [if_neg h30]
      exact hsorted_pw
  · intro h hh
    have hh' : h ∈ headingsRaw blocks := cappedHeadings_subset blocks hh
    rcases emitLoop_mem (clusteredSizes blocks) (sizeOutliers70 blocks) blocks [] [] h hh'
      with hl | ⟨l1, b, l2, lvl, hsplit, hcand, hlv, hform, _, hfirst⟩
    · cases hl
    · exact ⟨l1, b, l2, lvl, hsplit, hcand, hlv, hform, hfirst⟩

/-- Witness for C4: a one-line document whose only line `"Overview"` is
emitted as an H1 heading on page 1. -/
theorem C4_outline_dedup_first_occurrence_witness :
    ∃ l1 b l2 lvl,
      ([⟨codes "Overview", 24, false, 1⟩] : List Line) = l1 ++ b :: l2
      ∧ (is_likely_heading b.text = true
        ∨ b.fontsize ∈ sizeOutliers70 [⟨codes "Overview", 24, false, 1⟩])
      ∧ get_heading_level b.fontsize (clusteredSizes [⟨codes "Overview", 24, false, 1⟩])
          b.is_bold 2 = some lvl
      ∧ (⟨Level.H1, codes "Overview", 1⟩ : Heading) = ⟨lvl, pyStrip b.text, b.page⟩
      ∧ ∀ b' ∈ l1,
          acceptsBlock (clusteredSizes [⟨codes "Overview", 24, false, 1⟩])
            (sizeOutliers70 [⟨codes "Overview", 24, false, 1⟩]) b' = true →
          normL b'.text ≠ normL b.text :=
  (C4_outline_dedup_first_occurrence (codes "t") (codes "doc")
    [⟨codes "Overview", 24, false, 1⟩]).2 ⟨Level.H1, codes "Overview", 1⟩ (by decide)

theorem countP_take_filter_ne (lv lv' : Level) (hne : lv ≠ lv') (l : List Heading)
    (n : ℕ) :
    ((l.filter (fun h => decide (h.level = lv'))).take n).countP
      (fun h => decide (h.level = lv)) = 0 := by
  rw [List.countP_eq_zero]
  intro a ha
  have h2 := of_decide_eq_true (mem_take_filter ha).2
  simp only [h2, decide_eq_true_eq]
  exact fun h => hne h.symm

theorem countP_take_filter_le (lv : Level) (l : List Heading) (n : ℕ) :
    ((l.filter (fun h => decide (h.level = lv))).take n).countP
      (fun h => decide (h.level = lv)) ≤ n := by
  refine le_trans (List.countP_le_length _) ?_
  rw [List.length_take]
  omega

/-- C5: the produced outline never exceeds 30 headings; above 30 the
assembler keeps the first 5 H1s, 10 H2s and 15 H3s of the
`(page, level-rank)`-sorted list and re-sorts by page only, and at 30 or
fewer the sorted list is passed through uncapped. -/
theorem C5_cap_policy (metaTitle stem : List ℕ) (blocks : List Line) :
    (extract_outline metaTitle stem blocks).outline.length ≤ 30
    ∧ (extract_outline metaTitle stem blocks).outline
        = (if 30 < (sortedHeadings blocks).length
           then List.insertionSort pageLE
             (((sortedHeadings blocks).filter (fun h => decide (h.level = Level.H1))).take 5 ++
              ((sortedHeadings blocks).filter (fun h => decide (h.level = Level.H2))).take 10 ++
              ((sortedHeadings blocks).filter (fun h => decide (h.level = Level.H3))).take 15)
           else sortedHeadings blocks)
    ∧ (if 30 < (sortedHeadings blocks).length
       then (extract_outline metaTitle stem blocks).outline.countP
              (fun h => decide (h.level = Level.H1)) ≤ 5
          ∧ (extract_outline metaTitle stem blocks).outline.countP
              (fun h => decide (h.level = Level.H2)) ≤ 10
          ∧ (extract_outline metaTitle stem blocks).outline.countP
              (fun h => decide (h.level = Level.H3)) ≤ 15
       else (extract_outline metaTitle stem blocks).outline = sortedHeadings blocks) := by
  have houtline : (extract_outline metaTitle stem blocks).outline = cappedHeadings blocks :=
    rfl
  by_cases h30 : 30 < (sortedHeadings blocks).length
  · have hcap : cappedHeadings blocks = List.insertionSort pageLE
        (((sortedHeadings blocks).filter (fun h => decide (h.level = Level.H1))).take 5 ++
         ((sortedHeadings blocks).filter (fun h => decide (h.level = Level.H2))).take 10 ++
         ((sortedHeadings blocks).filter (fun h => decide (h.level = Level.H3))).take 15) := by
      unfold cappedHeadings
      rw [if_pos h30]
    have hperm := List.perm_insertionSort pageLE
      (((sortedHeadings blocks).filter (fun h => decide (h.level = Level.H1))).take 5 ++
       ((sortedHeadings blocks).filter (fun h => decide (h.level = Level.H2))).take 10 ++
       ((sortedHeadings blocks).filter (fun h => decide (h.level = Level.H3))).take 15)
    refine ⟨?_, ?_, ?_⟩
    · rw [houtline, hcap, hperm.length_eq]
      rw [List.length_append, List.length_append, List.length_take, List.length_take,
        List.length_take]
      omega
    · rw [houtline, hcap, if_pos h30]
    · rw [if_pos h30, houtline, hcap]
      refine ⟨?_, ?_, ?_⟩
      · rw [hperm.countP_eq, List.countP_append, List.countP_append]
        have h1 := countP_take_filter_le Level.H1 (sortedHeadings blocks) 5
        have h2 := countP_take_filter_ne Level.H1 Level.H2 (by simp) (sortedHeadings blocks) 10
        have h3 := countP_take_filter_ne Level.H1 Level.H3 (by simp) (sortedHeadings blocks) 15
        omega
      · rw [hperm.countP_eq, List.countP_append, List.countP_append]
        have h1 := countP_take_filter_ne Level.H2 Level.H1 (by simp) (sortedHeadings blocks) 5
        have h2 := countP_take_filter_le Level.H2 (sortedHeadings blocks) 10
        have h3 := countP_take_filter_ne Level.H2 Level.H3 (by simp) (sortedHeadings blocks) 15
        omega
      · rw [hperm.countP_eq, List.countP_append, List.countP_append]
        have h1 := countP_take_filter_ne Level.H3 Level.H1 (by simp) (sortedHeadings blocks) 5
        have h2 := countP_take_filter_ne Level.H3 Level.H2 (by simp) (sortedHeadings blocks) 10
        have h3 := countP_take_filter_le Level.H3 (sortedHeadings blocks) 15
        omega
  · have hcap : cappedHeadings blocks = sortedHeadings blocks := by
      unfold cappedHeadings
      rw [if_neg h30]
    refine ⟨?_, ?_, ?_⟩
    · rw [houtline, hcap]
      omega
    · rw [houtline, hcap, if_neg h30]
    · rw [if_neg h30, houtline, hcap]

/-- C9: the outline pipeline is a pure function of the metadata title,
the filename stem, and the extracted lines: equal inputs give identical
outlines (same title, same heading sequence). -/
theorem C9_pipeline_deterministic (m1 s1 : List ℕ) (b1 : List Line)
    (m2 s2 : List ℕ) (b2 : List Line)
    (hm : m1 = m2) (hs : s1 = s2) (hb : b1 = b2) :
    extract_outline m1 s1 b1 = extract_outline m2 s2 b2
    ∧ (extract_outline m1 s1 b1).title = (extract_outline m2 s2 b2).title
    ∧ (extract_outline m1 s1 b1).outline = (extract_outline m2 s2 b2).outline := by
  subst hm
  subst hs
  subst hb
  exact ⟨rfl, rfl, rfl⟩

/-- Witness for C9 at a concrete input. -/
theorem C9_pipeline_deterministic_witness :
    extract_outline (codes "Doc") (codes "doc") []
      = extract_outline (codes "Doc") (codes "doc") []
    ∧ (extract_outline (codes "Doc") (codes "doc") []).title
      = (extract_outline (codes "Doc") (codes "doc") []).title
    ∧ (extract_outline (codes "Doc") (codes "doc") []).outline
      = (extract_outline (codes "Doc") (codes "doc") []).outline :=
  C9_pipeline_deterministic (codes "Doc") (codes "doc") [] (codes "Doc") (codes "doc") []
    rfl rfl rfl

end Extractor



